import Mathlib

/-!
# Task manager with undo/redo history (`src/pbl.cpp`)

A shallow embedding of the `TaskManager` class of `src/pbl.cpp`.

* The singly linked list hanging off `head` is a `List Task`, front of the
  list first; the `next` pointer of a node is the tail of the list.
* `std::stack<Action>` is a `List Action` whose first element is the top.
* `Action::task` is an owned heap copy that is never null in the class (every
  `Action` is built from `deepCopyTask` of a live node or of a snapshot), so a
  snapshot is a `Task` value.
* `priority` is a C `int` that is only stored and copied, never computed
  with, so it is an `Int`.
* Console output is not part of the state and is left out.
-/

namespace Pbl

/-- A task node of the list: `struct Task` without its `next` pointer. -/
structure Task where
  name : String
  priority : Int
  deadline : String
  completed : Bool
deriving DecidableEq, Repr

/-- The constructor `Task(n, p, d)`: `completed` starts out `false`. -/
def Task.new (n : String) (p : Int) (d : String) : Task :=
  { name := n, priority := p, deadline := d, completed := false }

/-- A recorded action: `struct Action`, `type` is "ADD" or "DELETE". -/
structure Action where
  type : String
  task : Task
deriving DecidableEq, Repr

/-- The private state of `class TaskManager`. -/
structure TaskManager where
  head : List Task
  undoStack : List Action
  redoStack : List Action
deriving DecidableEq, Repr

/-- The constructor `TaskManager()`: no tasks, both stacks empty. -/
def TaskManager.init : TaskManager :=
  { head := [], undoStack := [], redoStack := [] }

/-- `deepCopyTask`: a fresh task with the same three fields, then the
`completed` flag copied over. -/
def deepCopyTask (task : Task) : Task :=
  let copy := Task.new task.name task.priority task.deadline
  { copy with completed := task.completed }

/-- `addTask`: link a new node in front of `head`, push an "ADD" action with a
copy of it, clear the redo stack. -/
def addTask (s : TaskManager) (name : String) (priority : Int) (deadline : String) :
    TaskManager :=
  let newTask := Task.new name priority deadline
  { head := newTask :: s.head
    undoStack := Action.mk "ADD" (deepCopyTask newTask) :: s.undoStack
    redoStack := [] }

/-- The `while (current)` loop of `deleteTask`. `prev` holds the nodes already
walked past (in list order), the list argument starts at `current`. On a match
the action is pushed, the node is unlinked and the redo stack cleared; when the
walk falls off the end nothing has changed. -/
def deleteTaskLoop (s : TaskManager) (name : String) (prev : List Task) :
    List Task → TaskManager
  | [] => s
  | current :: next =>
    if current.name = name then
      { head := prev ++ next
        undoStack := Action.mk "DELETE" (deepCopyTask current) :: s.undoStack
        redoStack := [] }
    else deleteTaskLoop s name (prev ++ [current]) next

/-- `deleteTask`: the loop started at `head` with no predecessor. -/
def deleteTask (s : TaskManager) (name : String) : TaskManager :=
  deleteTaskLoop s name [] s.head

/-- The `while (current)` loop in the "ADD" branch of `undo`: unlink the first
node with the given name and `break`; the list is unchanged without a match. -/
def undoAddLoop (name : String) (prev : List Task) : List Task → List Task
  | [] => prev
  | current :: next =>
    if current.name = name then prev ++ next
    else undoAddLoop name (prev ++ [current]) next

/-- `undo`: pop the top action; an "ADD" is reversed by unlinking the first
task of that name, a "DELETE" by linking a rebuilt task in front; either way a
copy of the snapshot goes onto the redo stack. -/
def undo (s : TaskManager) : TaskManager :=
  match s.undoStack with
  | [] => s
  | lastAction :: rest =>
    if lastAction.type = "ADD" then
      { head := undoAddLoop lastAction.task.name [] s.head
        undoStack := rest
        redoStack := Action.mk "ADD" (deepCopyTask lastAction.task) :: s.redoStack }
    else if lastAction.type = "DELETE" then
      let newTask :=
        { Task.new lastAction.task.name lastAction.task.priority lastAction.task.deadline with
          completed := lastAction.task.completed }
      { head := newTask :: s.head
        undoStack := rest
        redoStack := Action.mk "DELETE" (deepCopyTask lastAction.task) :: s.redoStack }
    else { s with undoStack := rest }

/-- `redo`: pop the top of the redo stack and replay it through the public
`addTask` / `deleteTask`. -/
def redo (s : TaskManager) : TaskManager :=
  match s.redoStack with
  | [] => s
  | lastUndo :: rest =>
    let s1 : TaskManager := { s with redoStack := rest }
    if lastUndo.type = "ADD" then
      addTask s1 lastUndo.task.name lastUndo.task.priority lastUndo.task.deadline
    else if lastUndo.type = "DELETE" then
      deleteTask s1 lastUndo.task.name
    else s1

/-- The `while (current)` loop of `markCompleted`: set the flag on the first
node with the given name, in place. -/
def markCompletedLoop (name : String) : List Task → List Task
  | [] => []
  | current :: next =>
    if current.name = name then { current with completed := true } :: next
    else current :: markCompletedLoop name next

/-- `markCompleted`: only the list is touched. -/
def markCompleted (s : TaskManager) (name : String) : TaskManager :=
  { s with head := markCompletedLoop name s.head }

/-- The state-changing menu entries of `main` (cases 1 to 5). -/
inductive Op where
  | addTask (name : String) (priority : Int) (deadline : String)
  | deleteTask (name : String)
  | markCompleted (name : String)
  | undo
  | redo
deriving DecidableEq, Repr

/-- One pass through the `switch` of `main`. -/
def step (s : TaskManager) : Op → TaskManager
  | .addTask name priority deadline => addTask s name priority deadline
  | .deleteTask name => deleteTask s name
  | .markCompleted name => markCompleted s name
  | .undo => undo s
  | .redo => redo s

/-- The manager after a sequence of calls on a freshly constructed one. -/
def run (ops : List Op) : TaskManager :=
  ops.foldl step TaskManager.init

/-- States a session can be in. -/
def Reachable (s : TaskManager) : Prop :=
  ∃ ops : List Op, run ops = s

/-- Some task of the list carries the name. -/
def hasName (name : String) (l : List Task) : Prop :=
  ∃ t ∈ l, t.name = name

instance (name : String) (l : List Task) : Decidable (hasName name l) := by
  unfold hasName; infer_instance

/-- What every session keeps true of the two stacks: only "ADD" and "DELETE"
actions are ever recorded, and a "DELETE" on top of the redo stack names a
task that is in the list (the undo that put it there has just linked that
task in front). -/
def HistoryInv (s : TaskManager) : Prop :=
  (∀ a ∈ s.undoStack, a.type = "ADD" ∨ a.type = "DELETE") ∧
  (∀ a ∈ s.redoStack, a.type = "ADD" ∨ a.type = "DELETE") ∧
  (∀ a rest, s.redoStack = a :: rest → a.type = "DELETE" → hasName a.task.name s.head)

/-- The condition on one call for sessions without duplicate adds: a direct
`addTask` uses a name that no task of the list has at the moment of the call;
the other calls are unrestricted. -/
def opFresh (s : TaskManager) : Op → Bool
  | .addTask name _ _ => !decide (hasName name s.head)
  | _ => true

/-- Every call of the session, started in `s`, satisfies `opFresh` in the
state it is made in. -/
def addsFresh : TaskManager → List Op → Bool
  | _, [] => true
  | s, op :: ops => opFresh s op && addsFresh (step s op) ops

/-- Rewinding the undo stack from a list with the given task names never meets
a duplicate name: the names are pairwise distinct now and stay so after each
further undo (an "ADD" takes its name out, a "DELETE" puts its name back). -/
def NamesCoherent : List Action → List String → Prop
  | [], ns => ns.Nodup
  | a :: rest, ns =>
    ns.Nodup ∧
      (if a.type = "ADD" then NamesCoherent rest (ns.erase a.task.name)
       else if a.type = "DELETE" then NamesCoherent rest (a.task.name :: ns)
       else NamesCoherent rest ns)

/-- The invariant of sessions without duplicate adds. -/
def UniqueInv (s : TaskManager) : Prop :=
  HistoryInv s ∧ NamesCoherent s.undoStack (s.head.map Task.name) ∧
    (∀ a rest, s.redoStack = a :: rest → a.type = "ADD" → ¬ hasName a.task.name s.head)

/-- The (priority, deadline) pairs of the tasks carrying the name, in list
order. -/
def nameStack (l : List Task) (n : String) : List (Int × String) :=
  (l.filter (fun t => decide (t.name = n))).map (fun t => (t.priority, t.deadline))

/-- Rewinding the undo stack from a list whose per-name view is `f` always
finds what was recorded: an "ADD" has a snapshot with `completed = false` and
meets, as the first task of its name, one with its priority and deadline
(which the undo then takes out); a "DELETE" puts its task back in front of
the tasks of its name. -/
def StackCoherent : List Action → (String → List (Int × String)) → Prop
  | [], _ => True
  | a :: rest, f =>
    if a.type = "ADD" then
      a.task.completed = false ∧
        (f a.task.name).head? = some (a.task.priority, a.task.deadline) ∧
        StackCoherent rest (Function.update f a.task.name (f a.task.name).tail)
    else if a.type = "DELETE" then
      StackCoherent rest
        (Function.update f a.task.name ((a.task.priority, a.task.deadline) :: f a.task.name))
    else StackCoherent rest f

/-- The name, priority and deadline of a task, without its completed flag. -/
def Task.key (t : Task) : String × Int × String :=
  (t.name, t.priority, t.deadline)

end Pbl

namespace Pbl

/-! ## Sample states used to instantiate the theorems -/

/-- A manager holding X (completed), Y and an older X, with one action on
each stack. -/
def sampleManager : TaskManager :=
  { head := [Task.mk "X" 1 "2025-01-01" true, Task.mk "Y" 2 "2025-02-02" false,
             Task.mk "X" 3 "2025-03-03" false]
    undoStack := [Action.mk "ADD" (Task.mk "X" 1 "2025-01-01" false)]
    redoStack := [Action.mk "ADD" (Task.mk "Z" 2 "2025-04-04" false)] }

/-- A session ending in two undos: the redo stack holds a DELETE above an
ADD. -/
def sampleSession : List Op :=
  [.addTask "A" 1 "2025-01-01", .markCompleted "A", .deleteTask "A",
   .addTask "B" 2 "2025-02-02", .undo, .undo]

/-- A session without duplicate adds: A is added again only after its
delete, and the delete is then undone and redone. -/
def sampleFreshSession : List Op :=
  [.addTask "A" 1 "2025-01-01", .addTask "B" 2 "2025-02-02", .deleteTask "A",
   .addTask "A" 3 "2025-03-03", .undo, .undo, .redo, .markCompleted "B"]

/-- A session with duplicate names whose undo stack ends with an ADD on top:
the second A is deleted and the delete undone. -/
def sampleDuplicateSession : List Op :=
  [.addTask "A" 1 "2025-01-01", .addTask "B" 2 "2025-02-02", .addTask "A" 3 "2025-03-03",
   .markCompleted "A", .deleteTask "A", .undo]

/-! ## Basic facts about the helpers -/

theorem deepCopyTask_eq (t : Task) : deepCopyTask t = t := by
  cases t; rfl

theorem undoAddLoop_hit (name : String) (prev next : List Task) (t : Task)
    (h : t.name = name) : undoAddLoop name prev (t :: next) = prev ++ next := by
  simp [undoAddLoop, h]

theorem deleteTaskLoop_absent (s : TaskManager) (name : String) :
    ∀ (l prev : List Task), ¬ hasName name l → deleteTaskLoop s name prev l = s := by
  intro l
  induction l with
  | nil => intro prev _; rfl
  | cons t l ih =>
    intro prev h
    have ht : t.name ≠ name := fun e => h ⟨t, List.mem_cons_self _ _, e⟩
    have hl : ¬ hasName name l := fun ⟨u, hu, e⟩ => h ⟨u, List.mem_cons_of_mem _ hu, e⟩
    simp only [deleteTaskLoop, if_neg ht]
    exact ih _ hl

theorem deleteTaskLoop_split (s : TaskManager) (name : String) (t : Task)
    (post : List Task) (ht : t.name = name) :
    ∀ (pre prev : List Task), (∀ u ∈ pre, u.name ≠ name) →
      deleteTaskLoop s name prev (pre ++ t :: post) =
        { head := prev ++ (pre ++ post)
          undoStack := Action.mk "DELETE" t :: s.undoStack
          redoStack := [] } := by
  intro pre
  induction pre with
  | nil =>
    intro prev _
    simp [deleteTaskLoop, ht, deepCopyTask_eq]
  | cons u pre ih =>
    intro prev h
    have hu : u.name ≠ name := h u (List.mem_cons_self _ _)
    have hpre : ∀ v ∈ pre, v.name ≠ name := fun v hv => h v (List.mem_cons_of_mem _ hv)
    have hstep : deleteTaskLoop s name prev (u :: pre ++ t :: post) =
        deleteTaskLoop s name (prev ++ [u]) (pre ++ t :: post) := by
      show deleteTaskLoop s name prev (u :: (pre ++ t :: post)) = _
      simp only [deleteTaskLoop, if_neg hu]
    rw [hstep, ih _ hpre]
    simp

/-- A list holding the name splits at the first task carrying it. -/
theorem exists_first_split (name : String) :
    ∀ l : List Task, hasName name l →
      ∃ pre t post, l = pre ++ t :: post ∧ t.name = name ∧ ∀ u ∈ pre, u.name ≠ name := by
  intro l
  induction l with
  | nil => rintro ⟨u, hu, _⟩; cases hu
  | cons t l ih =>
    intro h
    by_cases ht : t.name = name
    · exact ⟨[], t, l, rfl, ht, by simp⟩
    · have hl : hasName name l := by
        obtain ⟨u, hu, e⟩ := h
        rcases List.mem_cons.mp hu with rfl | hu
        · exact absurd e ht
        · exact ⟨u, hu, e⟩
      obtain ⟨pre, x, post, hsplit, hx, hpre⟩ := ih hl
      refine ⟨t :: pre, x, post, by simp [hsplit], hx, ?_⟩
      intro u hu
      rcases List.mem_cons.mp hu with rfl | hu
      · exact ht
      · exact hpre u hu

theorem deleteTask_split (s : TaskManager) (name : String) (pre post : List Task)
    (t : Task) (hs : s.head = pre ++ t :: post) (ht : t.name = name)
    (hpre : ∀ u ∈ pre, u.name ≠ name) :
    deleteTask s name =
      { head := pre ++ post
        undoStack := Action.mk "DELETE" t :: s.undoStack
        redoStack := [] } := by
  unfold deleteTask
  rw [hs, deleteTaskLoop_split s name t post ht pre [] hpre]
  simp

/-! ## addTask -/

/-- C6: after `addTask name priority deadline` the task list is the new task
`(name, priority, deadline, completed = false)` followed by all tasks of the
old list, unchanged and in the same order; there is no uniqueness check, so
this holds for every old list, also one that already has the name. -/
theorem addTask_head (s : TaskManager) (name : String) (priority : Int)
    (deadline : String) :
    (addTask s name priority deadline).head =
      Task.mk name priority deadline false :: s.head := by
  rfl

/-- C7: after `addTask name priority deadline` the undo stack is the old undo
stack with exactly one new action on top, an "ADD" whose snapshot is
`(name, priority, deadline, completed = false)`, and the redo stack is empty
whatever it held before. -/
theorem addTask_stacks (s : TaskManager) (name : String) (priority : Int)
    (deadline : String) :
    (addTask s name priority deadline).undoStack =
        Action.mk "ADD" (Task.mk name priority deadline false) :: s.undoStack ∧
      (addTask s name priority deadline).redoStack = [] := by
  exact ⟨rfl, rfl⟩

/-! ## addTask followed by undo and redo -/

/-- C2: `undo` right after `addTask name priority deadline` removes exactly
the task just added: the task list and the undo stack are those of the state
before the add (for every old list, also one holding the name already), and
the redo stack holds exactly one action, an "ADD" with snapshot
`(name, priority, deadline, completed = false)`. -/
theorem undo_addTask (s : TaskManager) (name : String) (priority : Int)
    (deadline : String) :
    (undo (addTask s name priority deadline)).head = s.head ∧
      (undo (addTask s name priority deadline)).undoStack = s.undoStack ∧
      (undo (addTask s name priority deadline)).redoStack =
        [Action.mk "ADD" (Task.mk name priority deadline false)] := by
  simp [undo, addTask, undoAddLoop, Task.new, deepCopyTask]

/-- C1: `addTask; undo; redo` ends in the state reached right after the
`addTask`, in all three components: the task list (the new task with
`completed = false`, then the old tasks in order), the undo stack and the redo
stack (empty). -/
theorem redo_undo_addTask (s : TaskManager) (name : String) (priority : Int)
    (deadline : String) :
    (redo (undo (addTask s name priority deadline))).head =
        (addTask s name priority deadline).head ∧
      (redo (undo (addTask s name priority deadline))).undoStack =
        (addTask s name priority deadline).undoStack ∧
      (redo (undo (addTask s name priority deadline))).redoStack =
        (addTask s name priority deadline).redoStack ∧
      (addTask s name priority deadline).head =
        Task.mk name priority deadline false :: s.head ∧
      (addTask s name priority deadline).redoStack = [] := by
  simp [redo, undo, addTask, undoAddLoop, Task.new, deepCopyTask]

/-- C5: after `addTask a; undo; addTask b` the redo stack is empty, and a
following `redo` changes none of the task list, the undo stack and the redo
stack. -/
theorem redo_after_new_add (s : TaskManager) (name₁ name₂ : String)
    (priority₁ priority₂ : Int) (deadline₁ deadline₂ : String) :
    (addTask (undo (addTask s name₁ priority₁ deadline₁))
        name₂ priority₂ deadline₂).redoStack = [] ∧
      redo (addTask (undo (addTask s name₁ priority₁ deadline₁))
        name₂ priority₂ deadline₂) =
        addTask (undo (addTask s name₁ priority₁ deadline₁)) name₂ priority₂ deadline₂ := by
  simp [redo, addTask]

/-! ## undo on an empty history -/

/-- C10: with an empty undo stack, `undo` leaves the task list, the undo stack
and the redo stack unchanged. -/
theorem undo_empty (s : TaskManager) (h : s.undoStack = []) :
    (undo s).head = s.head ∧ (undo s).undoStack = s.undoStack ∧
      (undo s).redoStack = s.redoStack := by
  simp [undo, h]

theorem undo_empty_witness :
    (TaskManager.mk sampleManager.head [] sampleManager.redoStack).undoStack = [] ∧
      (undo (TaskManager.mk sampleManager.head [] sampleManager.redoStack)).head =
        sampleManager.head ∧
      (undo (TaskManager.mk sampleManager.head [] sampleManager.redoStack)).undoStack = [] ∧
      (undo (TaskManager.mk sampleManager.head [] sampleManager.redoStack)).redoStack =
        sampleManager.redoStack :=
  ⟨rfl, undo_empty (TaskManager.mk sampleManager.head [] sampleManager.redoStack) rfl⟩

/-! ## deleteTask -/

/-- C4: `deleteTask name` with a name that no task of the list has leaves the
task list, the undo stack and the redo stack unchanged; the redo stack is not
cleared. -/
theorem deleteTask_absent (s : TaskManager) (name : String)
    (h : ¬ hasName name s.head) :
    (deleteTask s name).head = s.head ∧ (deleteTask s name).undoStack = s.undoStack ∧
      (deleteTask s name).redoStack = s.redoStack := by
  have e : deleteTask s name = s := deleteTaskLoop_absent s name s.head [] h
  rw [e]
  exact ⟨rfl, rfl, rfl⟩

theorem deleteTask_absent_witness :
    ¬ hasName "W" sampleManager.head ∧ sampleManager.redoStack ≠ [] ∧
      (deleteTask sampleManager "W").head = sampleManager.head ∧
      (deleteTask sampleManager "W").undoStack = sampleManager.undoStack ∧
      (deleteTask sampleManager "W").redoStack = sampleManager.redoStack :=
  ⟨by decide, by decide, deleteTask_absent sampleManager "W" (by decide)⟩

/-- C8: when the list holds a task named `X`, `deleteTask X` removes exactly
the first such task: the list splits as `pre ++ t :: post` with `t` named `X`
and nobody in `pre` named `X`, and afterwards the list is `pre ++ post` (all
other tasks, later ones named `X` included, in the same order), the undo stack
is the old one with one "DELETE" action on top whose snapshot equals `t` in
all four fields, and the redo stack is empty. -/
theorem deleteTask_present (s : TaskManager) (X : String) (h : hasName X s.head) :
    ∃ pre t post, s.head = pre ++ t :: post ∧ t.name = X ∧ (∀ u ∈ pre, u.name ≠ X) ∧
      (deleteTask s X).head = pre ++ post ∧
      (deleteTask s X).undoStack = Action.mk "DELETE" t :: s.undoStack ∧
      (deleteTask s X).redoStack = [] := by
  obtain ⟨pre, t, post, hs, ht, hpre⟩ := exists_first_split X s.head h
  refine ⟨pre, t, post, hs, ht, hpre, ?_⟩
  rw [deleteTask_split s X pre post t hs ht hpre]
  exact ⟨rfl, rfl, rfl⟩

theorem deleteTask_present_witness :
    hasName "X" sampleManager.head ∧
      ∃ pre t post, sampleManager.head = pre ++ t :: post ∧ t.name = "X" ∧
        (∀ u ∈ pre, u.name ≠ "X") ∧
        (deleteTask sampleManager "X").head = pre ++ post ∧
        (deleteTask sampleManager "X").undoStack =
          Action.mk "DELETE" t :: sampleManager.undoStack ∧
        (deleteTask sampleManager "X").redoStack = [] :=
  ⟨by decide, deleteTask_present sampleManager "X" (by decide)⟩

/-- C3: when the list holds a task named `X`, after `deleteTask X; undo` the
task list is `t :: (pre ++ post)`, where the old list is `pre ++ t :: post`
and `t` is its first task named `X`: the restored task equals the removed one
in name, priority, deadline and completed flag, it sits at the front, and the
list is a permutation of the old one; the undo stack is the old undo stack. -/
theorem undo_deleteTask (s : TaskManager) (X : String) (h : hasName X s.head) :
    ∃ pre t post, s.head = pre ++ t :: post ∧ t.name = X ∧ (∀ u ∈ pre, u.name ≠ X) ∧
      (undo (deleteTask s X)).head = t :: (pre ++ post) ∧
      (undo (deleteTask s X)).undoStack = s.undoStack ∧
      List.Perm (undo (deleteTask s X)).head s.head := by
  obtain ⟨pre, t, post, hs, ht, hpre⟩ := exists_first_split X s.head h
  refine ⟨pre, t, post, hs, ht, hpre, ?_⟩
  rw [deleteTask_split s X pre post t hs ht hpre, hs]
  have hd : (undo { head := pre ++ post
                    undoStack := Action.mk "DELETE" t :: s.undoStack
                    redoStack := [] }).head = t :: (pre ++ post) := by
    cases t
    simp [undo, Task.new]
  refine ⟨hd, ?_, ?_⟩
  · simp [undo]
  · rw [hd]
    exact List.perm_middle.symm

theorem undo_deleteTask_witness :
    hasName "X" sampleManager.head ∧
      ∃ pre t post, sampleManager.head = pre ++ t :: post ∧ t.name = "X" ∧
        (∀ u ∈ pre, u.name ≠ "X") ∧
        (undo (deleteTask sampleManager "X")).head = t :: (pre ++ post) ∧
        (undo (deleteTask sampleManager "X")).undoStack = sampleManager.undoStack ∧
        List.Perm (undo (deleteTask sampleManager "X")).head sampleManager.head :=
  ⟨by decide, undo_deleteTask sampleManager "X" (by decide)⟩

/-! ## The history invariant along a session -/

theorem historyInv_init : HistoryInv TaskManager.init := by
  refine ⟨?_, ?_, ?_⟩ <;> simp [TaskManager.init]

theorem historyInv_addTask (s : TaskManager) (name : String) (priority : Int)
    (deadline : String) (hu : ∀ a ∈ s.undoStack, a.type = "ADD" ∨ a.type = "DELETE") :
    HistoryInv (addTask s name priority deadline) := by
  refine ⟨?_, ?_, ?_⟩
  · intro a ha
    rcases List.mem_cons.mp ha with rfl | ha
    · exact Or.inl rfl
    · exact hu a ha
  · intro a ha; cases ha
  · intro a rest h; cases h

theorem historyInv_deleteTask_present (s : TaskManager) (name : String)
    (hu : ∀ a ∈ s.undoStack, a.type = "ADD" ∨ a.type = "DELETE")
    (h : hasName name s.head) :
    HistoryInv (deleteTask s name) ∧ (deleteTask s name).redoStack = [] := by
  obtain ⟨pre, t, post, hs, ht, hpre⟩ := exists_first_split name s.head h
  rw [deleteTask_split s name pre post t hs ht hpre]
  refine ⟨⟨?_, ?_, ?_⟩, rfl⟩
  · intro a ha
    rcases List.mem_cons.mp ha with rfl | ha
    · exact Or.inr rfl
    · exact hu a ha
  · intro a ha; cases ha
  · intro a rest h; cases h

theorem historyInv_deleteTask (s : TaskManager) (name : String) (hs : HistoryInv s) :
    HistoryInv (deleteTask s name) := by
  by_cases h : hasName name s.head
  · exact (historyInv_deleteTask_present s name hs.1 h).1
  · have e : deleteTask s name = s := deleteTaskLoop_absent s name s.head [] h
    rw [e]; exact hs

theorem hasName_markCompletedLoop (name n : String) :
    ∀ l : List Task, hasName n l → hasName n (markCompletedLoop name l) := by
  intro l
  induction l with
  | nil => intro h; exact h
  | cons t l ih =>
    rintro ⟨u, hu, e⟩
    by_cases ht : t.name = name
    · simp only [markCompletedLoop, if_pos ht]
      rcases List.mem_cons.mp hu with rfl | hu
      · exact ⟨_, List.mem_cons_self _ _, e⟩
      · exact ⟨u, List.mem_cons_of_mem _ hu, e⟩
    · simp only [markCompletedLoop, if_neg ht]
      rcases List.mem_cons.mp hu with rfl | hu
      · exact ⟨_, List.mem_cons_self _ _, e⟩
      · obtain ⟨v, hv, ev⟩ := ih ⟨u, hu, e⟩
        exact ⟨v, List.mem_cons_of_mem _ hv, ev⟩

theorem historyInv_markCompleted (s : TaskManager) (name : String) (hs : HistoryInv s) :
    HistoryInv (markCompleted s name) := by
  refine ⟨hs.1, hs.2.1, ?_⟩
  intro a rest h hd
  exact hasName_markCompletedLoop name _ _ (hs.2.2 a rest h hd)

theorem historyInv_undo (s : TaskManager) (hs : HistoryInv s) : HistoryInv (undo s) := by
  obtain ⟨hu, hr, hd⟩ := hs
  unfold undo
  split
  · exact ⟨hu, hr, hd⟩
  · rename_i lastAction rest hst
    have hrest : ∀ a ∈ rest, a.type = "ADD" ∨ a.type = "DELETE" := by
      intro a ha
      exact hu a (by rw [hst]; exact List.mem_cons_of_mem _ ha)
    by_cases hA : lastAction.type = "ADD"
    · rw [if_pos hA]
      refine ⟨hrest, ?_, ?_⟩
      · intro a ha
        rcases List.mem_cons.mp ha with rfl | ha
        · exact Or.inl rfl
        · exact hr a ha
      · intro a rest2 h hdel
        simp only [List.cons.injEq] at h
        rw [← h.1] at hdel
        have hne : ("ADD" : String) ≠ "DELETE" := by decide
        exact absurd hdel hne
    · rw [if_neg hA]
      by_cases hD : lastAction.type = "DELETE"
      · rw [if_pos hD]
        refine ⟨hrest, ?_, ?_⟩
        · intro a ha
          rcases List.mem_cons.mp ha with rfl | ha
          · exact Or.inr rfl
          · exact hr a ha
        · intro a rest2 h _
          simp only [List.cons.injEq] at h
          rw [← h.1]
          exact ⟨_, List.mem_cons_self _ _, by simp [Task.new, deepCopyTask]⟩
      · rw [if_neg hD]
        exact ⟨hrest, hr, hd⟩

theorem historyInv_redo (s : TaskManager) (hs : HistoryInv s) :
    HistoryInv (redo s) ∧ (s.redoStack ≠ [] → (redo s).redoStack = []) := by
  obtain ⟨hu, hr, hd⟩ := hs
  unfold redo
  split
  · rename_i hst
    exact ⟨⟨hu, hr, hd⟩, fun h => absurd hst h⟩
  · rename_i lastUndo rest hst
    have htop : lastUndo.type = "ADD" ∨ lastUndo.type = "DELETE" :=
      hr lastUndo (by rw [hst]; exact List.mem_cons_self _ _)
    by_cases hA : lastUndo.type = "ADD"
    · simp only [if_pos hA]
      exact ⟨historyInv_addTask _ _ _ _ hu, fun _ => rfl⟩
    · have hD : lastUndo.type = "DELETE" := htop.resolve_left hA
      simp only [if_neg hA, if_pos hD]
      have hfound : hasName lastUndo.task.name s.head := hd lastUndo rest hst hD
      have key := historyInv_deleteTask_present
        { s with redoStack := rest } lastUndo.task.name hu hfound
      exact ⟨key.1, fun _ => key.2⟩

theorem historyInv_step (s : TaskManager) (op : Op) (hs : HistoryInv s) :
    HistoryInv (step s op) := by
  cases op with
  | addTask name priority deadline => exact historyInv_addTask s name priority deadline hs.1
  | deleteTask name => exact historyInv_deleteTask s name hs
  | markCompleted name => exact historyInv_markCompleted s name hs
  | undo => exact historyInv_undo s hs
  | redo => exact (historyInv_redo s hs).1

theorem historyInv_foldl (ops : List Op) :
    ∀ s : TaskManager, HistoryInv s → HistoryInv (ops.foldl step s) := by
  induction ops with
  | nil => intro s hs; exact hs
  | cons op ops ih => intro s hs; exact ih _ (historyInv_step s op hs)

theorem historyInv_of_reachable (s : TaskManager) (h : Reachable s) : HistoryInv s := by
  obtain ⟨ops, rfl⟩ := h
  exact historyInv_foldl ops _ historyInv_init

/-! ## redo in a session -/

/-- C9: in every state reachable from a fresh manager by `addTask`,
`deleteTask`, `markCompleted`, `undo` and `redo` calls, a non-empty redo stack
is empty after `redo`, whatever lies below its top and whether the top is an
"ADD" or a "DELETE"; a "DELETE" on top always names a task of the list, so the
replayed `deleteTask` finds it and clears the stack. -/
theorem redo_clears_redoStack (s : TaskManager) (hreach : Reachable s)
    (hne : s.redoStack ≠ []) :
    (redo s).redoStack = [] ∧
      (∀ a rest, s.redoStack = a :: rest → a.type = "ADD" ∨ a.type = "DELETE") ∧
      (∀ a rest, s.redoStack = a :: rest → a.type = "DELETE" →
        hasName a.task.name s.head) := by
  have hs := historyInv_of_reachable s hreach
  refine ⟨(historyInv_redo s hs).2 hne, ?_, hs.2.2⟩
  intro a rest h
  exact hs.2.1 a (by rw [h]; exact List.mem_cons_self _ _)

theorem redo_clears_redoStack_witness :
    Reachable (run sampleSession) ∧
      (run sampleSession).redoStack =
        [Action.mk "DELETE" (Task.mk "A" 1 "2025-01-01" true),
         Action.mk "ADD" (Task.mk "B" 2 "2025-02-02" false)] ∧
      ((redo (run sampleSession)).redoStack = [] ∧
        (∀ a rest, (run sampleSession).redoStack = a :: rest →
          a.type = "ADD" ∨ a.type = "DELETE") ∧
        (∀ a rest, (run sampleSession).redoStack = a :: rest → a.type = "DELETE" →
          hasName a.task.name (run sampleSession).head)) :=
  ⟨⟨sampleSession, rfl⟩, by decide,
    redo_clears_redoStack (run sampleSession) ⟨sampleSession, rfl⟩ (by decide)⟩

/-! ## redo on an empty redo stack -/

/-- C11: with an empty redo stack, `redo` leaves the task list, the undo stack
and the redo stack unchanged. -/
theorem redo_empty (s : TaskManager) (h : s.redoStack = []) :
    (redo s).head = s.head ∧ (redo s).undoStack = s.undoStack ∧
      (redo s).redoStack = s.redoStack := by
  simp [redo, h]

theorem redo_empty_witness :
    (TaskManager.mk sampleManager.head sampleManager.undoStack []).redoStack = [] ∧
      (redo (TaskManager.mk sampleManager.head sampleManager.undoStack [])).head =
        sampleManager.head ∧
      (redo (TaskManager.mk sampleManager.head sampleManager.undoStack [])).undoStack =
        sampleManager.undoStack ∧
      (redo (TaskManager.mk sampleManager.head sampleManager.undoStack [])).redoStack = [] :=
  ⟨rfl, redo_empty (TaskManager.mk sampleManager.head sampleManager.undoStack []) rfl⟩

/-! ## markCompleted -/

theorem markCompletedLoop_absent (name : String) :
    ∀ l : List Task, ¬ hasName name l → markCompletedLoop name l = l := by
  intro l
  induction l with
  | nil => intro _; rfl
  | cons t l ih =>
    intro h
    have ht : t.name ≠ name := fun e => h ⟨t, List.mem_cons_self _ _, e⟩
    have hl : ¬ hasName name l := fun ⟨u, hu, e⟩ => h ⟨u, List.mem_cons_of_mem _ hu, e⟩
    simp only [markCompletedLoop, if_neg ht, ih hl]

theorem markCompletedLoop_split (name : String) (t : Task) (post : List Task)
    (ht : t.name = name) :
    ∀ pre : List Task, (∀ u ∈ pre, u.name ≠ name) →
      markCompletedLoop name (pre ++ t :: post) =
        pre ++ Task.mk t.name t.priority t.deadline true :: post := by
  intro pre
  induction pre with
  | nil => intro _; simp [markCompletedLoop, ht]
  | cons u pre ih =>
    intro h
    have hu : u.name ≠ name := h u (List.mem_cons_self _ _)
    have hpre : ∀ v ∈ pre, v.name ≠ name := fun v hv => h v (List.mem_cons_of_mem _ hv)
    show markCompletedLoop name (u :: (pre ++ t :: post)) = _
    simp only [markCompletedLoop, if_neg hu, ih hpre, List.cons_append]

/-- C12: `markCompleted name` touches neither stack (so it is never recorded,
and no snapshot changes), and on the list it does one of two things: when no
task has the name the list is unchanged; otherwise, with the list split as
`pre ++ t :: post` at the first task `t` of that name, the new list is
`pre ++ t' :: post` where `t'` is `t` with `completed = true` and the same
name, priority and deadline, so every other task (later ones of the same name
included) and the order stay. Calling it twice is the same as calling it
once. -/
theorem markCompleted_effect (s : TaskManager) (name : String) :
    (markCompleted s name).undoStack = s.undoStack ∧
      (markCompleted s name).redoStack = s.redoStack ∧
      ((¬ hasName name s.head ∧ (markCompleted s name).head = s.head) ∨
        (∃ pre t post, s.head = pre ++ t :: post ∧ t.name = name ∧
          (∀ u ∈ pre, u.name ≠ name) ∧
          (markCompleted s name).head =
            pre ++ Task.mk t.name t.priority t.deadline true :: post)) ∧
      markCompleted (markCompleted s name) name = markCompleted s name := by
  refine ⟨rfl, rfl, ?_, ?_⟩
  · by_cases h : hasName name s.head
    · obtain ⟨pre, t, post, hs, ht, hpre⟩ := exists_first_split name s.head h
      refine Or.inr ⟨pre, t, post, hs, ht, hpre, ?_⟩
      show markCompletedLoop name s.head = _
      rw [hs, markCompletedLoop_split name t post ht pre hpre]
    · exact Or.inl ⟨h, markCompletedLoop_absent name s.head h⟩
  · have key : markCompletedLoop name (markCompletedLoop name s.head) =
        markCompletedLoop name s.head := by
      by_cases h : hasName name s.head
      · obtain ⟨pre, t, post, hs, ht, hpre⟩ := exists_first_split name s.head h
        rw [hs, markCompletedLoop_split name t post ht pre hpre]
        exact markCompletedLoop_split name (Task.mk t.name t.priority t.deadline true)
          post ht pre hpre
      · rw [markCompletedLoop_absent name s.head h, markCompletedLoop_absent name s.head h]
    show TaskManager.mk (markCompletedLoop name (markCompletedLoop name s.head))
      s.undoStack s.redoStack = TaskManager.mk (markCompletedLoop name s.head)
      s.undoStack s.redoStack
    rw [key]

/-! ## undo moves the top action across -/

/-- C13: with a non-empty undo stack whose top action `a` is of one of the two
kinds an `Action` can have ("ADD" or "DELETE"), `undo` removes exactly `a`
from the undo stack, leaving the actions below, and pushes exactly one action
onto the redo stack, above the actions already there: it has the kind of `a`
and a snapshot equal to that of `a` in all four fields. -/
theorem undo_moves_top (s : TaskManager) (a : Action) (rest : List Action)
    (hs : s.undoStack = a :: rest) (hk : a.type = "ADD" ∨ a.type = "DELETE") :
    (undo s).undoStack = rest ∧
      (undo s).redoStack = Action.mk a.type a.task :: s.redoStack := by
  have hne : ("DELETE" : String) ≠ "ADD" := by decide
  rcases hk with hA | hD
  · simp [undo, hs, hA, deepCopyTask_eq]
  · simp [undo, hs, hD, hne, deepCopyTask_eq]

theorem undo_moves_top_witness :
    sampleManager.undoStack = [Action.mk "ADD" (Task.mk "X" 1 "2025-01-01" false)] ∧
      ((Action.mk "ADD" (Task.mk "X" 1 "2025-01-01" false)).type = "ADD" ∨
        (Action.mk "ADD" (Task.mk "X" 1 "2025-01-01" false)).type = "DELETE") ∧
      (undo sampleManager).undoStack = [] ∧
      (undo sampleManager).redoStack =
        Action.mk "ADD" (Task.mk "X" 1 "2025-01-01" false) :: sampleManager.redoStack :=
  ⟨rfl, Or.inl rfl,
    undo_moves_top sampleManager (Action.mk "ADD" (Task.mk "X" 1 "2025-01-01" false)) []
      rfl (Or.inl rfl)⟩

/-! ## Duplicate names -/

/-- C15: when the list already holds a task named `X` (first one `old`, the
list being `pre ++ old :: post`), `addTask X priority deadline` puts a second
entry named `X` in front of it, and by-name lookups hit the new entry: a
following `deleteTask X` removes the new entry (its snapshot is the one
recorded) and gives back the old list, and a following `markCompleted X` sets
`completed` on the new entry only; in both cases `old` and every other task
are untouched. -/
theorem addTask_duplicate_shadows (s : TaskManager) (X : String) (priority : Int)
    (deadline : String) (h : hasName X s.head) :
    ∃ pre old post, s.head = pre ++ old :: post ∧ old.name = X ∧
      (∀ u ∈ pre, u.name ≠ X) ∧
      (addTask s X priority deadline).head =
        Task.mk X priority deadline false :: (pre ++ old :: post) ∧
      (deleteTask (addTask s X priority deadline) X).head = pre ++ old :: post ∧
      (deleteTask (addTask s X priority deadline) X).undoStack =
        Action.mk "DELETE" (Task.mk X priority deadline false) ::
          (addTask s X priority deadline).undoStack ∧
      (markCompleted (addTask s X priority deadline) X).head =
        Task.mk X priority deadline true :: (pre ++ old :: post) := by
  obtain ⟨pre, old, post, hs, ht, hpre⟩ := exists_first_split X s.head h
  refine ⟨pre, old, post, hs, ht, hpre, ?_, ?_, ?_, ?_⟩
  · rw [← hs]; rfl
  · rw [← hs]; simp [deleteTask, deleteTaskLoop, addTask, Task.new]
  · simp [deleteTask, deleteTaskLoop, addTask, Task.new, deepCopyTask]
  · rw [← hs]; simp [markCompleted, markCompletedLoop, addTask, Task.new]

theorem addTask_duplicate_shadows_witness :
    hasName "X" sampleManager.head ∧
      ∃ pre old post, sampleManager.head = pre ++ old :: post ∧ old.name = "X" ∧
        (∀ u ∈ pre, u.name ≠ "X") ∧
        (addTask sampleManager "X" 2 "2026-06-06").head =
          Task.mk "X" 2 "2026-06-06" false :: (pre ++ old :: post) ∧
        (deleteTask (addTask sampleManager "X" 2 "2026-06-06") "X").head =
          pre ++ old :: post ∧
        (deleteTask (addTask sampleManager "X" 2 "2026-06-06") "X").undoStack =
          Action.mk "DELETE" (Task.mk "X" 2 "2026-06-06" false) ::
            (addTask sampleManager "X" 2 "2026-06-06").undoStack ∧
        (markCompleted (addTask sampleManager "X" 2 "2026-06-06") "X").head =
          Task.mk "X" 2 "2026-06-06" true :: (pre ++ old :: post) :=
  ⟨by decide, addTask_duplicate_shadows sampleManager "X" 2 "2026-06-06" (by decide)⟩

/-! ## Snapshots and later mutation -/

/-- C16: after `addTask name priority deadline; markCompleted name` the live
head task is completed while the "ADD" snapshot on top of the undo stack still
has `completed = false`; after the following `undo; redo` the head of the list
is the task `(name, priority, deadline)` with `completed = false` (rebuilt from
the three snapshot fields only), the rest of the list is the old list, and the
"ADD" action on top of the undo stack has a snapshot with
`completed = false`. -/
theorem redo_add_after_markCompleted (s : TaskManager) (name : String)
    (priority : Int) (deadline : String) :
    (markCompleted (addTask s name priority deadline) name).head =
        Task.mk name priority deadline true :: s.head ∧
      (markCompleted (addTask s name priority deadline) name).undoStack =
        Action.mk "ADD" (Task.mk name priority deadline false) :: s.undoStack ∧
      (redo (undo (markCompleted (addTask s name priority deadline) name))).head =
        Task.mk name priority deadline false :: s.head ∧
      (redo (undo (markCompleted (addTask s name priority deadline) name))).undoStack =
        Action.mk "ADD" (Task.mk name priority deadline false) :: s.undoStack := by
  simp [redo, undo, markCompleted, markCompletedLoop, addTask, undoAddLoop, Task.new,
    deepCopyTask]

/-! ## deleteTask followed by undo and redo -/

/-- C18: when the list holds a task named `X`, `deleteTask X; undo; redo` ends
in the state reached right after `deleteTask X`, in all three components: the
task list (the old list `pre ++ t :: post` without its first task `t` named
`X`, same order), the undo stack (the old one with the "DELETE" action on top,
snapshot `t`) and the redo stack (empty). -/
theorem redo_undo_deleteTask (s : TaskManager) (X : String) (h : hasName X s.head) :
    ∃ pre t post, s.head = pre ++ t :: post ∧ t.name = X ∧ (∀ u ∈ pre, u.name ≠ X) ∧
      (deleteTask s X).head = pre ++ post ∧
      (deleteTask s X).undoStack = Action.mk "DELETE" t :: s.undoStack ∧
      (deleteTask s X).redoStack = [] ∧
      (redo (undo (deleteTask s X))).head = (deleteTask s X).head ∧
      (redo (undo (deleteTask s X))).undoStack = (deleteTask s X).undoStack ∧
      (redo (undo (deleteTask s X))).redoStack = (deleteTask s X).redoStack := by
  obtain ⟨pre, t, post, hs, ht, hpre⟩ := exists_first_split X s.head h
  refine ⟨pre, t, post, hs, ht, hpre, ?_⟩
  rw [deleteTask_split s X pre post t hs ht hpre]
  have hne : ("DELETE" : String) ≠ "ADD" := by decide
  cases t
  simp [redo, undo, deleteTask, deleteTaskLoop, Task.new, deepCopyTask, hne]

theorem redo_undo_deleteTask_witness :
    hasName "X" sampleManager.head ∧
      ∃ pre t post, sampleManager.head = pre ++ t :: post ∧ t.name = "X" ∧
        (∀ u ∈ pre, u.name ≠ "X") ∧
        (deleteTask sampleManager "X").head = pre ++ post ∧
        (deleteTask sampleManager "X").undoStack =
          Action.mk "DELETE" t :: sampleManager.undoStack ∧
        (deleteTask sampleManager "X").redoStack = [] ∧
        (redo (undo (deleteTask sampleManager "X"))).head =
          (deleteTask sampleManager "X").head ∧
        (redo (undo (deleteTask sampleManager "X"))).undoStack =
          (deleteTask sampleManager "X").undoStack ∧
        (redo (undo (deleteTask sampleManager "X"))).redoStack =
          (deleteTask sampleManager "X").redoStack :=
  ⟨by decide, redo_undo_deleteTask sampleManager "X" (by decide)⟩

/-! ## Names stay unique without duplicate adds -/

theorem hasName_iff_mem_names (n : String) (l : List Task) :
    hasName n l ↔ n ∈ l.map Task.name := by
  simp [hasName, List.mem_map]

theorem names_undoAddLoop (n : String) :
    ∀ l prev : List Task, (undoAddLoop n prev l).map Task.name =
      prev.map Task.name ++ (l.map Task.name).erase n := by
  intro l
  induction l with
  | nil => intro prev; simp [undoAddLoop]
  | cons t l ih =>
    intro prev
    by_cases ht : t.name = n
    · simp [undoAddLoop, ht]
    · have hb : ¬ (t.name == n) = true := by simpa using ht
      simp only [undoAddLoop, if_neg ht, ih, List.map_cons, List.erase_cons_tail hb]
      simp

theorem names_markCompletedLoop (m : String) :
    ∀ l : List Task, (markCompletedLoop m l).map Task.name = l.map Task.name := by
  intro l
  induction l with
  | nil => rfl
  | cons t l ih =>
    by_cases ht : t.name = m
    · simp [markCompletedLoop, ht]
    · simp [markCompletedLoop, ht, ih]

theorem namesCoherent_nodup (st : List Action) (ns : List String)
    (h : NamesCoherent st ns) : ns.Nodup := by
  cases st with
  | nil => exact h
  | cons a rest => exact h.1

theorem namesCoherent_perm :
    ∀ (st : List Action) (ns ms : List String), List.Perm ns ms →
      NamesCoherent st ns → NamesCoherent st ms := by
  intro st
  induction st with
  | nil => intro ns ms hp h; exact hp.nodup_iff.mp h
  | cons a rest ih =>
    intro ns ms hp h
    refine ⟨hp.nodup_iff.mp h.1, ?_⟩
    have h2 := h.2
    by_cases hA : a.type = "ADD"
    · rw [if_pos hA] at h2 ⊢
      exact ih _ _ (hp.erase _) h2
    · rw [if_neg hA] at h2 ⊢
      by_cases hD : a.type = "DELETE"
      · rw [if_pos hD] at h2 ⊢
        exact ih _ _ (hp.cons _) h2
      · rw [if_neg hD] at h2 ⊢
        exact ih _ _ hp h2

theorem namesCoherent_addTask (s : TaskManager) (name : String) (priority : Int)
    (deadline : String) (hfresh : ¬ hasName name s.head)
    (hc : NamesCoherent s.undoStack (s.head.map Task.name)) :
    NamesCoherent (addTask s name priority deadline).undoStack
      ((addTask s name priority deadline).head.map Task.name) := by
  show NamesCoherent (Action.mk "ADD" (deepCopyTask (Task.new name priority deadline)) ::
    s.undoStack) (name :: s.head.map Task.name)
  have hnot : name ∉ s.head.map Task.name := fun h =>
    hfresh ((hasName_iff_mem_names name s.head).mpr h)
  refine ⟨List.nodup_cons.mpr ⟨hnot, namesCoherent_nodup _ _ hc⟩, ?_⟩
  simpa [deepCopyTask, Task.new] using hc

theorem namesCoherent_deleteTask (s : TaskManager) (name : String)
    (hc : NamesCoherent s.undoStack (s.head.map Task.name)) :
    NamesCoherent (deleteTask s name).undoStack
      ((deleteTask s name).head.map Task.name) := by
  by_cases h : hasName name s.head
  · obtain ⟨pre, t, post, hs, ht, hpre⟩ := exists_first_split name s.head h
    rw [deleteTask_split s name pre post t hs ht hpre]
    show NamesCoherent (Action.mk "DELETE" t :: s.undoStack) ((pre ++ post).map Task.name)
    have hp : List.Perm (s.head.map Task.name) (t.name :: (pre ++ post).map Task.name) := by
      rw [hs]
      simp only [List.map_append, List.map_cons]
      exact List.perm_middle
    have hc2 := namesCoherent_perm _ _ _ hp hc
    have hne : ("DELETE" : String) ≠ "ADD" := by decide
    refine ⟨(List.nodup_cons.mp (namesCoherent_nodup _ _ hc2)).2, ?_⟩
    simpa [hne] using hc2
  · have e : deleteTask s name = s := deleteTaskLoop_absent s name s.head [] h
    rw [e]; exact hc

theorem uniqueInv_init : UniqueInv TaskManager.init := by
  refine ⟨historyInv_init, ?_, ?_⟩
  · exact List.nodup_nil
  · intro a rest h; cases h

theorem uniqueInv_addTask (s : TaskManager) (name : String) (priority : Int)
    (deadline : String) (hfresh : ¬ hasName name s.head) (hs : UniqueInv s) :
    UniqueInv (addTask s name priority deadline) := by
  refine ⟨historyInv_addTask s name priority deadline hs.1.1,
    namesCoherent_addTask s name priority deadline hfresh hs.2.1, ?_⟩
  intro a rest h; cases h

theorem uniqueInv_deleteTask (s : TaskManager) (name : String) (hs : UniqueInv s) :
    UniqueInv (deleteTask s name) := by
  refine ⟨historyInv_deleteTask s name hs.1, namesCoherent_deleteTask s name hs.2.1, ?_⟩
  by_cases h : hasName name s.head
  · intro a rest hst
    rw [(historyInv_deleteTask_present s name hs.1.1 h).2] at hst
    cases hst
  · have e : deleteTask s name = s := deleteTaskLoop_absent s name s.head [] h
    rw [e]; exact hs.2.2

theorem uniqueInv_markCompleted (s : TaskManager) (name : String) (hs : UniqueInv s) :
    UniqueInv (markCompleted s name) := by
  refine ⟨historyInv_markCompleted s name hs.1, ?_, ?_⟩
  · show NamesCoherent s.undoStack ((markCompletedLoop name s.head).map Task.name)
    rw [names_markCompletedLoop]; exact hs.2.1
  · intro a rest hst ha hn
    have hn2 : hasName a.task.name s.head := by
      rw [hasName_iff_mem_names] at hn ⊢
      have e : (markCompleted s name).head.map Task.name = s.head.map Task.name :=
        names_markCompletedLoop name s.head
      rw [e] at hn; exact hn
    exact hs.2.2 a rest hst ha hn2

theorem uniqueInv_undo (s : TaskManager) (hs : UniqueInv s) : UniqueInv (undo s) := by
  refine ⟨historyInv_undo s hs.1, ?_⟩
  obtain ⟨_, hc, hr⟩ := hs
  unfold undo
  split
  · exact ⟨hc, hr⟩
  · rename_i lastAction rest hst
    rw [hst] at hc
    have hnd := hc.1
    have hc2 := hc.2
    by_cases hA : lastAction.type = "ADD"
    · rw [if_pos hA] at hc2 ⊢
      have hnames : (undoAddLoop lastAction.task.name [] s.head).map Task.name =
          (s.head.map Task.name).erase lastAction.task.name := by
        rw [names_undoAddLoop]; rfl
      refine ⟨?_, ?_⟩
      · show NamesCoherent rest ((undoAddLoop lastAction.task.name [] s.head).map Task.name)
        rw [hnames]; exact hc2
      · intro a rest2 h _ hn
        simp only [List.cons.injEq] at h
        rw [← h.1, hasName_iff_mem_names] at hn
        have hn2 : lastAction.task.name ∈
            (undoAddLoop lastAction.task.name [] s.head).map Task.name := by
          simpa [deepCopyTask, Task.new] using hn
        rw [hnames] at hn2
        exact absurd hn2 (hnd.not_mem_erase)
    · rw [if_neg hA] at hc2 ⊢
      by_cases hD : lastAction.type = "DELETE"
      · rw [if_pos hD] at hc2 ⊢
        refine ⟨hc2, ?_⟩
        intro a rest2 h ha
        simp only [List.cons.injEq] at h
        rw [← h.1] at ha
        have hne : ("DELETE" : String) ≠ "ADD" := by decide
        exact absurd ha hne
      · rw [if_neg hD] at hc2 ⊢
        exact ⟨hc2, hr⟩

theorem uniqueInv_redo (s : TaskManager) (hs : UniqueInv s) : UniqueInv (redo s) := by
  have hh := historyInv_redo s hs.1
  refine ⟨hh.1, ?_⟩
  obtain ⟨hi, hc, hr⟩ := hs
  by_cases hemp : s.redoStack = []
  · have e : redo s = s := by simp [redo, hemp]
    rw [e]; exact ⟨hc, hr⟩
  · refine ⟨?_, ?_⟩
    · unfold redo
      split
      · exact hc
      · rename_i lastUndo rest hst
        by_cases hA : lastUndo.type = "ADD"
        · simp only [if_pos hA]
          exact namesCoherent_addTask { s with redoStack := rest } _ _ _
            (hr lastUndo rest hst hA) hc
        · simp only [if_neg hA]
          by_cases hD : lastUndo.type = "DELETE"
          · simp only [if_pos hD]
            exact namesCoherent_deleteTask { s with redoStack := rest } _ hc
          · simp only [if_neg hD]
            exact hc
    · intro a rest h
      rw [hh.2 hemp] at h
      cases h

theorem uniqueInv_foldl :
    ∀ (ops : List Op) (s : TaskManager), UniqueInv s → addsFresh s ops = true →
      UniqueInv (ops.foldl step s) := by
  intro ops
  induction ops with
  | nil => intro s hs _; exact hs
  | cons op ops ih =>
    intro s hs hf
    simp only [addsFresh, Bool.and_eq_true] at hf
    refine ih _ ?_ hf.2
    cases op with
    | addTask name priority deadline =>
      have hfresh : ¬ hasName name s.head := by simpa [opFresh] using hf.1
      exact uniqueInv_addTask s name priority deadline hfresh hs
    | deleteTask name => exact uniqueInv_deleteTask s name hs
    | markCompleted name => exact uniqueInv_markCompleted s name hs
    | undo => exact uniqueInv_undo s hs
    | redo => exact uniqueInv_redo s hs

/-- C14: in every state reached from a fresh manager by a session in which no
direct `addTask` call uses a name that is in the list at the moment of the
call (`deleteTask`, `markCompleted`, `undo` and `redo` calls being arbitrary),
no two tasks of the list share a name; moreover a "DELETE" on top of the undo
stack and an "ADD" on top of the redo stack never name a task that is in the
list, so undoing the one or redoing the other does not bring in a name that is
already live. -/
theorem names_unique_of_fresh_adds (ops : List Op)
    (h : addsFresh TaskManager.init ops = true) :
    List.Pairwise (fun t u : Task => t.name ≠ u.name) (run ops).head ∧
      (∀ a rest, (run ops).undoStack = a :: rest → a.type = "DELETE" →
        ¬ hasName a.task.name (run ops).head) ∧
      (∀ a rest, (run ops).redoStack = a :: rest → a.type = "ADD" →
        ¬ hasName a.task.name (run ops).head) := by
  have hinv : UniqueInv (run ops) := uniqueInv_foldl ops _ uniqueInv_init h
  obtain ⟨_, hc, hr⟩ := hinv
  refine ⟨?_, ?_, hr⟩
  · have hnd := namesCoherent_nodup _ _ hc
    exact (List.pairwise_map).mp hnd
  · intro a rest hst ha hn
    rw [hst] at hc
    have hne : ("DELETE" : String) ≠ "ADD" := by decide
    have hc2 := hc.2
    rw [ha, if_neg hne, if_pos rfl] at hc2
    have hnd := namesCoherent_nodup _ _ hc2
    exact (List.nodup_cons.mp hnd).1 ((hasName_iff_mem_names _ _).mp hn)

theorem names_unique_of_fresh_adds_witness :
    addsFresh TaskManager.init sampleFreshSession = true ∧
      (run sampleFreshSession).head =
        [Task.mk "B" 2 "2025-02-02" true] ∧
      (List.Pairwise (fun t u : Task => t.name ≠ u.name) (run sampleFreshSession).head ∧
        (∀ a rest, (run sampleFreshSession).undoStack = a :: rest → a.type = "DELETE" →
          ¬ hasName a.task.name (run sampleFreshSession).head) ∧
        (∀ a rest, (run sampleFreshSession).redoStack = a :: rest → a.type = "ADD" →
          ¬ hasName a.task.name (run sampleFreshSession).head)) :=
  ⟨by decide, by decide, names_unique_of_fresh_adds sampleFreshSession (by decide)⟩

/-! ## The undo stack matches the list, name by name -/

theorem undoAddLoop_absent (n : String) :
    ∀ l prev : List Task, ¬ hasName n l → undoAddLoop n prev l = prev ++ l := by
  intro l
  induction l with
  | nil => intro prev _; simp [undoAddLoop]
  | cons t l ih =>
    intro prev h
    have ht : t.name ≠ n := fun e => h ⟨t, List.mem_cons_self _ _, e⟩
    have hl : ¬ hasName n l := fun ⟨u, hu, e⟩ => h ⟨u, List.mem_cons_of_mem _ hu, e⟩
    simp only [undoAddLoop, if_neg ht, ih _ hl]
    simp

theorem undoAddLoop_split (n : String) (t : Task) (post : List Task) (ht : t.name = n) :
    ∀ pre prev : List Task, (∀ u ∈ pre, u.name ≠ n) →
      undoAddLoop n prev (pre ++ t :: post) = prev ++ (pre ++ post) := by
  intro pre
  induction pre with
  | nil => intro prev _; simp [undoAddLoop, ht]
  | cons u pre ih =>
    intro prev h
    have hu : u.name ≠ n := h u (List.mem_cons_self _ _)
    have hpre : ∀ v ∈ pre, v.name ≠ n := fun v hv => h v (List.mem_cons_of_mem _ hv)
    show undoAddLoop n prev (u :: (pre ++ t :: post)) = _
    simp only [undoAddLoop, if_neg hu, ih _ hpre]
    simp

theorem nameStack_cons (t : Task) (l : List Task) :
    nameStack (t :: l) =
      Function.update (nameStack l) t.name ((t.priority, t.deadline) :: nameStack l t.name) := by
  funext m
  by_cases hm : m = t.name
  · subst hm
    simp [nameStack]
  · have hm2 : ¬ t.name = m := fun e => hm e.symm
    simp [nameStack, Function.update_noteq hm, hm2]

theorem nameStack_absent (n : String) (l : List Task) (h : ¬ hasName n l) :
    nameStack l n = [] := by
  have : ∀ t ∈ l, ¬ t.name = n := fun t ht e => h ⟨t, ht, e⟩
  simpa [nameStack, List.filter_eq_nil_iff] using this

theorem nameStack_split (n : String) (pre post : List Task) (t : Task) (ht : t.name = n)
    (hpre : ∀ u ∈ pre, u.name ≠ n) :
    nameStack (pre ++ t :: post) n = (t.priority, t.deadline) :: nameStack (pre ++ post) n ∧
      nameStack (pre ++ post) =
        Function.update (nameStack (pre ++ t :: post)) n (nameStack (pre ++ post) n) := by
  have hfilter : pre.filter (fun u => decide (u.name = n)) = [] := by
    simp [List.filter_eq_nil_iff]; exact hpre
  refine ⟨?_, ?_⟩
  · simp [nameStack, List.filter_append, hfilter, List.filter_cons, ht]
  · funext m
    by_cases hm : m = n
    · subst hm; simp
    · have hm2 : ¬ t.name = m := fun e => hm (by rw [← e, ht])
      simp [nameStack, Function.update_noteq hm, List.filter_append, List.filter_cons, hm2]

theorem nameStack_undoAddLoop (n : String) (l : List Task) :
    nameStack (undoAddLoop n [] l) = Function.update (nameStack l) n (nameStack l n).tail := by
  by_cases h : hasName n l
  · obtain ⟨pre, t, post, hs, ht, hpre⟩ := exists_first_split n l h
    obtain ⟨h1, h2⟩ := nameStack_split n pre post t ht hpre
    rw [hs, undoAddLoop_split n t post ht pre [] hpre, h1]
    simpa using h2
  · rw [undoAddLoop_absent n l [] h, nameStack_absent n l h]
    simp only [List.nil_append, List.tail_nil]
    rw [← nameStack_absent n l h, Function.update_eq_self]

theorem nameStack_markCompletedLoop (m : String) :
    ∀ l : List Task, nameStack (markCompletedLoop m l) = nameStack l := by
  intro l
  induction l with
  | nil => rfl
  | cons t l ih =>
    by_cases ht : t.name = m
    · simp only [markCompletedLoop, if_pos ht]
      rw [nameStack_cons, nameStack_cons]
    · simp only [markCompletedLoop, if_neg ht]
      rw [nameStack_cons, nameStack_cons, ih]

theorem stackCoherent_addTask (s : TaskManager) (name : String) (priority : Int)
    (deadline : String) (hc : StackCoherent s.undoStack (nameStack s.head)) :
    StackCoherent (addTask s name priority deadline).undoStack
      (nameStack (addTask s name priority deadline).head) := by
  show StackCoherent (Action.mk "ADD" (deepCopyTask (Task.new name priority deadline)) ::
    s.undoStack) (nameStack (Task.new name priority deadline :: s.head))
  rw [nameStack_cons]
  simp only [StackCoherent, if_pos, deepCopyTask, Task.new, Function.update_same,
    List.head?_cons, List.tail_cons, Function.update_idem, Function.update_eq_self]
  exact ⟨trivial, trivial, hc⟩

theorem stackCoherent_deleteTask (s : TaskManager) (name : String)
    (hc : StackCoherent s.undoStack (nameStack s.head)) :
    StackCoherent (deleteTask s name).undoStack (nameStack (deleteTask s name).head) := by
  by_cases h : hasName name s.head
  · obtain ⟨pre, t, post, hs, ht, hpre⟩ := exists_first_split name s.head h
    obtain ⟨h1, h2⟩ := nameStack_split name pre post t ht hpre
    rw [deleteTask_split s name pre post t hs ht hpre]
    show StackCoherent (Action.mk "DELETE" t :: s.undoStack) (nameStack (pre ++ post))
    have hne : ("DELETE" : String) ≠ "ADD" := by decide
    have e : Function.update (nameStack (pre ++ post)) t.name
        ((t.priority, t.deadline) :: nameStack (pre ++ post) t.name) = nameStack s.head := by
      rw [ht, ← h1, hs]
      conv_lhs => rw [h2]
      rw [Function.update_idem, Function.update_eq_self]
    simp only [StackCoherent, if_neg hne, if_true, e]
    exact hc
  · have e : deleteTask s name = s := deleteTaskLoop_absent s name s.head [] h
    rw [e]; exact hc

theorem stackCoherent_undo (s : TaskManager)
    (hc : StackCoherent s.undoStack (nameStack s.head)) :
    StackCoherent (undo s).undoStack (nameStack (undo s).head) := by
  unfold undo
  split
  · exact hc
  · rename_i lastAction rest hst
    rw [hst] at hc
    by_cases hA : lastAction.type = "ADD"
    · simp only [StackCoherent, if_pos hA] at hc
      rw [if_pos hA]
      show StackCoherent rest (nameStack (undoAddLoop lastAction.task.name [] s.head))
      rw [nameStack_undoAddLoop]
      exact hc.2.2
    · by_cases hD : lastAction.type = "DELETE"
      · simp only [StackCoherent, if_neg hA, if_pos hD] at hc
        rw [if_neg hA, if_pos hD]
        show StackCoherent rest (nameStack (_ :: s.head))
        rw [nameStack_cons]
        exact hc
      · simp only [StackCoherent, if_neg hA, if_neg hD] at hc
        rw [if_neg hA, if_neg hD]
        exact hc

theorem stackCoherent_redo (s : TaskManager)
    (hc : StackCoherent s.undoStack (nameStack s.head)) :
    StackCoherent (redo s).undoStack (nameStack (redo s).head) := by
  unfold redo
  split
  · exact hc
  · rename_i lastUndo rest hst
    by_cases hA : lastUndo.type = "ADD"
    · simp only [if_pos hA]
      exact stackCoherent_addTask { s with redoStack := rest } _ _ _ hc
    · simp only [if_neg hA]
      by_cases hD : lastUndo.type = "DELETE"
      · simp only [if_pos hD]
        exact stackCoherent_deleteTask { s with redoStack := rest } _ hc
      · simp only [if_neg hD]
        exact hc

theorem stackCoherent_foldl :
    ∀ (ops : List Op) (s : TaskManager), StackCoherent s.undoStack (nameStack s.head) →
      StackCoherent (ops.foldl step s).undoStack (nameStack (ops.foldl step s).head) := by
  intro ops
  induction ops with
  | nil => intro s hs; exact hs
  | cons op ops ih =>
    intro s hs
    refine ih _ ?_
    cases op with
    | addTask name priority deadline => exact stackCoherent_addTask s name priority deadline hs
    | deleteTask name => exact stackCoherent_deleteTask s name hs
    | markCompleted name =>
      show StackCoherent s.undoStack (nameStack (markCompletedLoop name s.head))
      rw [nameStack_markCompletedLoop]; exact hs
    | undo => exact stackCoherent_undo s hs
    | redo => exact stackCoherent_redo s hs

theorem stackCoherent_of_reachable (s : TaskManager) (h : Reachable s) :
    StackCoherent s.undoStack (nameStack s.head) := by
  obtain ⟨ops, rfl⟩ := h
  exact stackCoherent_foldl ops _ trivial

/-- An "ADD" on top of a coherent undo stack: its snapshot has
`completed = false`, and the list splits at the first task of its name, which
has the snapshot's priority and deadline. -/
theorem add_on_top_split (s : TaskManager) (a : Action) (rest : List Action)
    (hc : StackCoherent s.undoStack (nameStack s.head))
    (hs : s.undoStack = a :: rest) (ha : a.type = "ADD") :
    a.task.completed = false ∧
      ∃ pre t post, s.head = pre ++ t :: post ∧ t.name = a.task.name ∧
        (∀ u ∈ pre, u.name ≠ a.task.name) ∧
        t.priority = a.task.priority ∧ t.deadline = a.task.deadline := by
  rw [hs] at hc
  simp only [StackCoherent, if_pos ha] at hc
  refine ⟨hc.1, ?_⟩
  have hhead := hc.2.1
  by_cases h : hasName a.task.name s.head
  · obtain ⟨pre, t, post, hsp, ht, hpre⟩ := exists_first_split a.task.name s.head h
    obtain ⟨h1, _⟩ := nameStack_split a.task.name pre post t ht hpre
    rw [hsp, h1] at hhead
    simp only [List.head?_cons, Option.some.injEq, Prod.mk.injEq] at hhead
    exact ⟨pre, t, post, hsp, ht, hpre, hhead.1, hhead.2⟩
  · rw [nameStack_absent _ _ h] at hhead
    cases hhead

/-! ## undo of an ADD in a session -/

/-- C17: in every state reachable from a fresh manager by `addTask`,
`deleteTask`, `markCompleted`, `undo` and `redo` calls (duplicate names
allowed), when the top of the undo stack is an "ADD" action the list holds a
task with the snapshot's name, and the first such task `t` (the list being
`pre ++ t :: post` with nobody in `pre` of that name) has the snapshot's
priority and deadline; `undo` then removes exactly `t`: the list becomes
`pre ++ post`, one task shorter. -/
theorem undo_add_removes_its_task (s : TaskManager) (hreach : Reachable s)
    (a : Action) (rest : List Action) (hs : s.undoStack = a :: rest)
    (ha : a.type = "ADD") :
    ∃ pre t post, s.head = pre ++ t :: post ∧ t.name = a.task.name ∧
      (∀ u ∈ pre, u.name ≠ a.task.name) ∧
      t.priority = a.task.priority ∧ t.deadline = a.task.deadline ∧
      (undo s).head = pre ++ post ∧
      (undo s).head.length + 1 = s.head.length := by
  obtain ⟨_, pre, t, post, hsp, ht, hpre, hp, hd⟩ :=
    add_on_top_split s a rest (stackCoherent_of_reachable s hreach) hs ha
  have hundo : (undo s).head = pre ++ post := by
    have e : (undo s).head = undoAddLoop a.task.name [] s.head := by
      simp [undo, hs, ha]
    rw [e, hsp, undoAddLoop_split a.task.name t post ht pre [] hpre]
    simp
  refine ⟨pre, t, post, hsp, ht, hpre, hp, hd, hundo, ?_⟩
  rw [hundo, hsp]
  simp only [List.length_append, List.length_cons]
  omega

theorem undo_add_removes_its_task_witness :
    Reachable (run sampleDuplicateSession) ∧
      (run sampleDuplicateSession).undoStack =
        Action.mk "ADD" (Task.mk "A" 3 "2025-03-03" false) ::
          [Action.mk "ADD" (Task.mk "B" 2 "2025-02-02" false),
           Action.mk "ADD" (Task.mk "A" 1 "2025-01-01" false)] ∧
      (Action.mk "ADD" (Task.mk "A" 3 "2025-03-03" false)).type = "ADD" ∧
      ∃ pre t post, (run sampleDuplicateSession).head = pre ++ t :: post ∧
        t.name = "A" ∧ (∀ u ∈ pre, u.name ≠ "A") ∧
        t.priority = 3 ∧ t.deadline = "2025-03-03" ∧
        (undo (run sampleDuplicateSession)).head = pre ++ post ∧
        (undo (run sampleDuplicateSession)).head.length + 1 =
          (run sampleDuplicateSession).head.length :=
  ⟨⟨sampleDuplicateSession, rfl⟩, by decide, rfl,
    undo_add_removes_its_task (run sampleDuplicateSession) ⟨sampleDuplicateSession, rfl⟩
      (Action.mk "ADD" (Task.mk "A" 3 "2025-03-03" false))
      [Action.mk "ADD" (Task.mk "B" 2 "2025-02-02" false),
       Action.mk "ADD" (Task.mk "A" 1 "2025-01-01" false)] (by decide) rfl⟩

/-! ## undo followed by redo in a session -/

/-- C19: in every state `s` reachable from a fresh manager by `addTask`,
`deleteTask`, `markCompleted`, `undo` and `redo` calls whose undo stack is not
empty (top action `a`), the state after `undo; redo` has the undo stack of `s`
(same kinds, equal snapshots, same order) and a task list with the same
multiset of (name, priority, deadline) triples as the list of `s`; when `a` is
a "DELETE" the list after `undo; redo` is the list of `s` itself, order and
completed flags included. -/
theorem redo_undo_in_session (s : TaskManager) (hreach : Reachable s)
    (a : Action) (rest : List Action) (hs : s.undoStack = a :: rest) :
    (redo (undo s)).undoStack = s.undoStack ∧
      List.Perm ((redo (undo s)).head.map Task.key) (s.head.map Task.key) ∧
      (a.type = "DELETE" → (redo (undo s)).head = s.head) := by
  have hinv := historyInv_of_reachable s hreach
  have hkind : a.type = "ADD" ∨ a.type = "DELETE" :=
    hinv.1 a (by rw [hs]; exact List.mem_cons_self _ _)
  have hne : ("DELETE" : String) ≠ "ADD" := by decide
  rcases hkind with hA | hD
  · obtain ⟨hfalse, pre, t, post, hsp, ht, hpre, hp, hd⟩ :=
      add_on_top_split s a rest (stackCoherent_of_reachable s hreach) hs hA
    have eu : undo s = TaskManager.mk (pre ++ post) rest
        (Action.mk "ADD" (deepCopyTask a.task) :: s.redoStack) := by
      have e := undoAddLoop_split a.task.name t post ht pre [] hpre
      simp only [List.nil_append] at e
      simp [undo, hs, hA, hsp, e]
    have ea : a = Action.mk "ADD" (Task.mk a.task.name a.task.priority a.task.deadline false) := by
      cases a with
      | mk ty tk =>
        cases tk
        simp only at hA hfalse
        subst hA
        subst hfalse
        rfl
    have er : redo (undo s) = TaskManager.mk
        (Task.mk a.task.name a.task.priority a.task.deadline false :: (pre ++ post))
        (Action.mk "ADD" (Task.mk a.task.name a.task.priority a.task.deadline false) :: rest)
        [] := by
      rw [eu]
      simp [redo, addTask, deepCopyTask, Task.new]
    rw [er]
    refine ⟨?_, ?_, ?_⟩
    · show _ = s.undoStack
      rw [hs]
      exact congrArg (fun x => x :: rest) ea.symm
    · show List.Perm ((Task.mk a.task.name a.task.priority a.task.deadline false ::
        (pre ++ post)).map Task.key) (s.head.map Task.key)
      have hk : Task.key (Task.mk a.task.name a.task.priority a.task.deadline false) =
          Task.key t := by
        simp [Task.key, ht, hp, hd]
      rw [hsp, List.map_cons, hk]
      simp only [List.map_append, List.map_cons]
      exact List.perm_middle.symm
    · intro hD
      rw [hA] at hD
      exact absurd hD.symm hne
  · have er : redo (undo s) = TaskManager.mk s.head (Action.mk "DELETE" a.task :: rest) [] := by
      cases a with
      | mk ty tk =>
        cases tk
        simp only at hD
        subst hD
        simp [redo, undo, hs, hne, deleteTask, deleteTaskLoop, deepCopyTask, Task.new]
    have ea : a = Action.mk "DELETE" a.task := by
      cases a with
      | mk ty tk =>
        simp only at hD
        subst hD
        rfl
    rw [er]
    refine ⟨?_, List.Perm.refl _, fun _ => rfl⟩
    show _ = s.undoStack
    rw [hs]
    exact congrArg (fun x => x :: rest) ea.symm

theorem redo_undo_in_session_witness :
    Reachable (run sampleDuplicateSession) ∧
      (run sampleDuplicateSession).undoStack =
        Action.mk "ADD" (Task.mk "A" 3 "2025-03-03" false) ::
          [Action.mk "ADD" (Task.mk "B" 2 "2025-02-02" false),
           Action.mk "ADD" (Task.mk "A" 1 "2025-01-01" false)] ∧
      ((redo (undo (run sampleDuplicateSession))).undoStack =
          (run sampleDuplicateSession).undoStack ∧
        List.Perm ((redo (undo (run sampleDuplicateSession))).head.map Task.key)
          ((run sampleDuplicateSession).head.map Task.key) ∧
        ((Action.mk "ADD" (Task.mk "A" 3 "2025-03-03" false)).type = "DELETE" →
          (redo (undo (run sampleDuplicateSession))).head =
            (run sampleDuplicateSession).head)) :=
  ⟨⟨sampleDuplicateSession, rfl⟩, by decide,
    redo_undo_in_session (run sampleDuplicateSession) ⟨sampleDuplicateSession, rfl⟩
      (Action.mk "ADD" (Task.mk "A" 3 "2025-03-03" false))
      [Action.mk "ADD" (Task.mk "B" 2 "2025-02-02" false),
       Action.mk "ADD" (Task.mk "A" 1 "2025-01-01" false)] (by decide)⟩

end Pbl
